import Mathlib

/-!
Verification of the concurrent disk-usage walker (godu, `main.go`).

The program walks one or more directory roots with one goroutine per
directory (`walkDir`), counts regular files and sums their sizes over a
fan-in channel (`fileSizes`), tracks in-flight walkers with a WaitGroup
that a watcher goroutine waits on before closing the channel, and caps
concurrent directory reads with a 256-slot semaphore inside `dirents`.

The filesystem is embedded as a tree (`FSTree`); the sequential
denotation of `walkDir` is given by recursive functions
(`entriesCount`, `entriesBytes`, `entriesErr`), and the concurrency
core by a small-step transition relation (`Step`) over `State`, whose
nondeterminism ranges over all goroutine interleavings.
-/

namespace Godu

/-- A filesystem node: a regular (non-directory) entry with its byte size
(sizes are `int64` in the source; overflow is immaterial here and they are
modelled as `Int`), or a directory that either reads successfully, listing
its children, or fails to read (permission denied, vanished, and so on). -/
inductive FSTree where
  | file (name : String) (size : Int)
  | dir (name : String) (readable : Bool) (children : List FSTree)

/-- Entry list produced by the source function `dirents`: the children on a
successful `ioutil.ReadDir`, and `nil` when the read fails (an unreadable
directory, or a path that is not a directory at all). -/
def direntsEntries : FSTree → List FSTree
  | .dir _ true cs => cs
  | _ => []

/-- Number of error lines one `dirents` call writes to stderr: one on a
failed read, none otherwise. -/
def direntsErrs : FSTree → Nat
  | .dir _ true _ => 0
  | _ => 1

/-- The source function `dirents dir`: the entries of the directory together
with the number of error lines it reports (0 or 1). -/
def dirents (t : FSTree) : List FSTree × Nat := (direntsEntries t, direntsErrs t)

/-- The error line `dirents` writes on a failed read:
`fmt.Fprintf(os.Stderr, "du: %v\n", err)` — the fixed prefix `du: `
followed by the error description. -/
def errLine (msg : String) : String := "du: " ++ msg

/-- Number of sizes `walkDir` sends while processing the entry list `es` of a
directory: a non-directory entry sends its size once; a subdirectory entry
spawns a recursive walk of that subdirectory, which contributes the sizes
reachable under it (nothing when its read fails). -/
def entriesCount : List FSTree → Nat
  | [] => 0
  | .file _ _ :: es => 1 + entriesCount es
  | .dir _ true cs :: es => entriesCount cs + entriesCount es
  | .dir _ false _ :: es => entriesCount es

/-- Sum of the sizes `walkDir` sends while processing the entry list `es`
(same recursion as `entriesCount`). -/
def entriesBytes : List FSTree → Int
  | [] => 0
  | .file _ s :: es => s + entriesBytes es
  | .dir _ true cs :: es => entriesBytes cs + entriesBytes es
  | .dir _ false _ :: es => entriesBytes es

/-- Number of error lines reported while processing the entry list `es`: a
subdirectory whose read fails reports one line and contributes nothing
further; file entries never invoke `dirents`. -/
def entriesErr : List FSTree → Nat
  | [] => 0
  | .file _ _ :: es => entriesErr es
  | .dir _ true cs :: es => entriesErr cs + entriesErr es
  | .dir _ false _ :: es => 1 + entriesErr es

/-- Step budget for processing the entry list `es`: a file entry costs two
steps (its send plus the eventual receive), a subdirectory entry costs its
spawn step plus the whole budget of the spawned walker (three bookkeeping
steps plus its own entries). Used as the termination measure. -/
def entriesM : List FSTree → Nat
  | [] => 0
  | .file _ _ :: es => 2 + entriesM es
  | .dir _ true cs :: es => 4 + entriesM cs + entriesM es
  | .dir _ false _ :: es => 4 + entriesM es

/-- Number of sizes a whole `walkDir` call on `t` sends. -/
def walkCount (t : FSTree) : Nat := entriesCount (direntsEntries t)

/-- Sum of the sizes a whole `walkDir` call on `t` sends. -/
def walkBytes (t : FSTree) : Int := entriesBytes (direntsEntries t)

/-- Number of error lines a whole `walkDir` call on `t` reports. -/
def walkErrs (t : FSTree) : Nat := direntsErrs t + entriesErr (direntsEntries t)

/-- Step budget of a whole walker task on `t`. -/
def treeM (t : FSTree) : Nat := 3 + entriesM (direntsEntries t)

/-- Total count sent over all roots. -/
def rootsCount (roots : List FSTree) : Nat := (roots.map walkCount).sum

/-- Total bytes sent over all roots. -/
def rootsBytes (roots : List FSTree) : Int := (roots.map walkBytes).sum

/-- Total error lines over all roots. -/
def rootsErrs (roots : List FSTree) : Nat := (roots.map walkErrs).sum

/-- Specification-side count of the regular files in a forest, read off the
tree alone (no walk semantics involved). -/
def numFilesIn : List FSTree → Nat
  | [] => 0
  | .file _ _ :: es => 1 + numFilesIn es
  | .dir _ _ cs :: es => numFilesIn cs + numFilesIn es

/-- Specification-side count of the regular files under the node `t`. -/
def numFilesT : FSTree → Nat
  | .file _ _ => 1
  | .dir _ _ cs => numFilesIn cs

/-- Specification-side sum of the sizes of the regular files in a forest. -/
def sumSizesIn : List FSTree → Int
  | [] => 0
  | .file _ s :: es => s + sumSizesIn es
  | .dir _ _ cs :: es => sumSizesIn cs + sumSizesIn es

/-- Specification-side sum of the sizes of the regular files under `t`. -/
def sumSizesT : FSTree → Int
  | .file _ s => s
  | .dir _ _ cs => sumSizesIn cs

/-- When no read under an entry list fails, the walk sends exactly one size
per regular file, so its count and byte totals agree with the
specification-side totals of the forest. -/
theorem entries_noerr (es : List FSTree) (h : entriesErr es = 0) :
    entriesCount es = numFilesIn es ∧ entriesBytes es = sumSizesIn es := by
  induction es using entriesErr.induct with
  | case1 => simp [entriesCount, entriesBytes, numFilesIn, sumSizesIn]
  | case2 nm sz es ih =>
      simp only [entriesErr] at h
      have := ih h
      simp [entriesCount, entriesBytes, numFilesIn, sumSizesIn, this.1, this.2]
  | case3 nm cs es ih₁ ih₂ =>
      simp only [entriesErr] at h
      have h₁ := ih₁ (by omega)
      have h₂ := ih₂ (by omega)
      simp [entriesCount, entriesBytes, numFilesIn, sumSizesIn, h₁.1, h₁.2, h₂.1, h₂.2]
  | case4 nm cs es ih =>
      simp only [entriesErr] at h
      omega

/-- When the walk of the root `t` reports no read error, `t` is a readable
directory and the walk totals equal the specification-side totals. -/
theorem walk_noerr (t : FSTree) (h : walkErrs t = 0) :
    walkCount t = numFilesT t ∧ walkBytes t = sumSizesT t := by
  cases t with
  | file nm sz => simp [walkErrs, direntsErrs] at h
  | dir nm ok cs =>
      cases ok with
      | false => simp [walkErrs, direntsErrs] at h
      | true =>
          simp only [walkErrs, direntsErrs, direntsEntries, Nat.zero_add] at h
          have := entries_noerr cs h
          simpa [walkCount, walkBytes, direntsEntries, numFilesT, sumSizesT] using this

/-- Control state of one `walkDir` goroutine: `begin t` — spawned, not yet
inside `dirents`; `reading t` — holding one semaphore token while
`ioutil.ReadDir` runs; `running es` — token released, iterating over the
remaining entries `es` of the `for` loop. -/
inductive Phase where
  | begin (t : FSTree)
  | reading (t : FSTree)
  | running (es : List FSTree)

/-- Whether a walker currently holds a semaphore token (is inside the
acquire/release pair of `dirents`). -/
def Phase.isReading : Phase → Bool
  | .reading _ => true
  | _ => false

/-- Whether a walker has not yet entered `dirents`. -/
def Phase.atBegin : Phase → Bool
  | .begin _ => true
  | _ => false

/-- Global state of the concurrency core of `main`: the live walker
goroutines, the WaitGroup counter `n`, the outstanding `sema` tokens, the
buffered `fileSizes` channel (its queued values and closed flag), the
aggregator's running totals `nfiles`/`nbytes`, the number of error lines
printed so far, and whether the aggregator loop has exited. -/
structure State where
  tasks : List Phase
  wg : Nat
  tokens : Nat
  chan : List Int
  closed : Bool
  nfiles : Int
  nbytes : Int
  errs : Nat
  agDone : Bool

/-- Initial state of `main` for the given roots: one registered walker per
root (`n.Add(1)` precedes each `go walkDir(root, ...)`), empty channel, zero
totals. -/
def initState (roots : List FSTree) : State :=
  ⟨roots.map .begin, roots.length, 0, [], false, 0, 0, 0, false⟩

/-- One interleaving step of the program, for semaphore capacity `cap`
(256 in the source) and channel buffer `bufCap` (256 in the source).
Constructors follow the source lines: `acquire`/`readRelease` are the
`sema <- struct{}{}` / `ReadDir`-then-`<-sema` halves of `dirents`;
`spawn` is the `n.Add(1); go walkDir(subdir, ...)` branch of the entry
loop; `send` the `fileSizes <- entry.Size()` branch; `finishTask` the
deferred `n.Done()`; `closeChan` the watcher's `n.Wait(); close(fileSizes)`;
`recv` and `finish` the aggregator's `select` receive and its `break` on a
closed, drained channel. -/
inductive Step (cap bufCap : Nat) : State → State → Prop where
  | acquire (l₁ l₂ : List Phase) (t : FSTree) (wg tokens : Nat) (ch : List Int)
      (cl : Bool) (nf nb : Int) (er : Nat) (ag : Bool) (h : tokens < cap) :
      Step cap bufCap
        ⟨l₁ ++ .begin t :: l₂, wg, tokens, ch, cl, nf, nb, er, ag⟩
        ⟨l₁ ++ .reading t :: l₂, wg, tokens + 1, ch, cl, nf, nb, er, ag⟩
  | readRelease (l₁ l₂ : List Phase) (t : FSTree) (wg tokens : Nat) (ch : List Int)
      (cl : Bool) (nf nb : Int) (er : Nat) (ag : Bool) :
      Step cap bufCap
        ⟨l₁ ++ .reading t :: l₂, wg, tokens, ch, cl, nf, nb, er, ag⟩
        ⟨l₁ ++ .running (direntsEntries t) :: l₂, wg, tokens - 1, ch, cl, nf, nb,
          er + direntsErrs t, ag⟩
  | spawn (l₁ l₂ : List Phase) (nm : String) (ok : Bool) (cs es : List FSTree)
      (wg tokens : Nat) (ch : List Int) (cl : Bool) (nf nb : Int) (er : Nat) (ag : Bool) :
      Step cap bufCap
        ⟨l₁ ++ .running (.dir nm ok cs :: es) :: l₂, wg, tokens, ch, cl, nf, nb, er, ag⟩
        ⟨(l₁ ++ .running es :: l₂) ++ [.begin (.dir nm ok cs)], wg + 1, tokens, ch, cl,
          nf, nb, er, ag⟩
  | send (l₁ l₂ : List Phase) (nm : String) (sz : Int) (es : List FSTree)
      (wg tokens : Nat) (ch : List Int) (cl : Bool) (nf nb : Int) (er : Nat) (ag : Bool)
      (h : ch.length < bufCap) :
      Step cap bufCap
        ⟨l₁ ++ .running (.file nm sz :: es) :: l₂, wg, tokens, ch, cl, nf, nb, er, ag⟩
        ⟨l₁ ++ .running es :: l₂, wg, tokens, ch ++ [sz], cl, nf, nb, er, ag⟩
  | finishTask (l₁ l₂ : List Phase) (wg tokens : Nat) (ch : List Int)
      (cl : Bool) (nf nb : Int) (er : Nat) (ag : Bool) :
      Step cap bufCap
        ⟨l₁ ++ .running [] :: l₂, wg, tokens, ch, cl, nf, nb, er, ag⟩
        ⟨l₁ ++ l₂, wg - 1, tokens, ch, cl, nf, nb, er, ag⟩
  | closeChan (ts : List Phase) (tokens : Nat) (ch : List Int)
      (nf nb : Int) (er : Nat) (ag : Bool) :
      Step cap bufCap
        ⟨ts, 0, tokens, ch, false, nf, nb, er, ag⟩
        ⟨ts, 0, tokens, ch, true, nf, nb, er, ag⟩
  | recv (ts : List Phase) (wg tokens : Nat) (sz : Int) (rest : List Int)
      (cl : Bool) (nf nb : Int) (er : Nat) (ag : Bool) :
      Step cap bufCap
        ⟨ts, wg, tokens, sz :: rest, cl, nf, nb, er, ag⟩
        ⟨ts, wg, tokens, rest, cl, nf + 1, nb + sz, er, ag⟩
  | finish (ts : List Phase) (wg tokens : Nat) (nf nb : Int) (er : Nat) :
      Step cap bufCap
        ⟨ts, wg, tokens, [], true, nf, nb, er, false⟩
        ⟨ts, wg, tokens, [], true, nf, nb, er, true⟩

/-- Reachability of `s` from the start of a run over the given roots, under
an arbitrary interleaving. -/
def Reach (cap bufCap : Nat) (roots : List FSTree) (s : State) : Prop :=
  Relation.ReflTransGen (Step cap bufCap) (initState roots) s

/-- Sizes a walker in phase `p` will still send (itself or via the walkers
it will spawn). -/
def taskCount : Phase → Nat
  | .begin t => walkCount t
  | .reading t => walkCount t
  | .running es => entriesCount es

/-- Bytes a walker in phase `p` will still send. -/
def taskBytes : Phase → Int
  | .begin t => walkBytes t
  | .reading t => walkBytes t
  | .running es => entriesBytes es

/-- Error lines a walker in phase `p` will still report. -/
def taskErrs : Phase → Nat
  | .begin t => walkErrs t
  | .reading t => walkErrs t
  | .running es => entriesErr es

/-- Remaining step budget of a walker in phase `p`. -/
def taskM : Phase → Nat
  | .begin t => 3 + entriesM (direntsEntries t)
  | .reading t => 2 + entriesM (direntsEntries t)
  | .running es => 1 + entriesM es

/-- One pending unit of work for an event (the close, the aggregator exit)
that has not happened yet. -/
def pending (b : Bool) : Nat := cond b 0 1

/-- Termination measure of a state: remaining walker budgets, queued channel
values, plus one for the pending close and one for the pending aggregator
exit. Every step strictly decreases it. -/
def stepMeasure (s : State) : Nat :=
  (s.tasks.map taskM).sum + s.chan.length + pending s.closed + pending s.agDone

/-- Processing a subdirectory entry at the head of an entry list contributes
exactly the totals of a whole walk of that subdirectory. -/
theorem entriesCount_dir_cons (nm : String) (ok : Bool) (cs es : List FSTree) :
    entriesCount (.dir nm ok cs :: es) = walkCount (.dir nm ok cs) + entriesCount es := by
  cases ok <;> simp [entriesCount, walkCount, direntsEntries]

/-- Byte version of `entriesCount_dir_cons`. -/
theorem entriesBytes_dir_cons (nm : String) (ok : Bool) (cs es : List FSTree) :
    entriesBytes (.dir nm ok cs :: es) = walkBytes (.dir nm ok cs) + entriesBytes es := by
  cases ok <;> simp [entriesBytes, walkBytes, direntsEntries]

/-- Error-line version of `entriesCount_dir_cons`. -/
theorem entriesErr_dir_cons (nm : String) (ok : Bool) (cs es : List FSTree) :
    entriesErr (.dir nm ok cs :: es) = walkErrs (.dir nm ok cs) + entriesErr es := by
  cases ok <;> simp [entriesErr, walkErrs, direntsErrs, direntsEntries] <;> omega

/-- Budget version of `entriesCount_dir_cons`: a subdirectory entry costs its
spawn step plus the spawned walker's whole budget. -/
theorem entriesM_dir_cons (nm : String) (ok : Bool) (cs es : List FSTree) :
    entriesM (.dir nm ok cs :: es) = 1 + treeM (.dir nm ok cs) + entriesM es := by
  cases ok <;> simp [entriesM, treeM, direntsEntries] <;> omega

/-- State invariant of every run over `roots` with semaphore capacity `cap`:
the WaitGroup counts exactly the live walkers; the outstanding tokens are
exactly the walkers inside `dirents` and never exceed the capacity; after the
close there is no walker left; the aggregator exits only once the channel is
closed and drained; and the aggregated totals, the queued channel values and
the walkers' remaining contributions always add up to the full walk totals
of the roots. -/
structure Inv (cap : Nat) (roots : List FSTree) (s : State) : Prop where
  hwg : s.wg = s.tasks.length
  htok : s.tokens = s.tasks.countP Phase.isReading
  hcap : s.tokens ≤ cap
  hclosed : s.closed = true → s.tasks = []
  hag : s.agDone = true → s.closed = true ∧ s.chan = []
  hcount : s.nfiles + ((s.tasks.map taskCount).sum : Int) + (s.chan.length : Int) =
    (rootsCount roots : Int)
  hbytes : s.nbytes + (s.tasks.map taskBytes).sum + s.chan.sum = rootsBytes roots
  herrs : s.errs + (s.tasks.map taskErrs).sum = rootsErrs roots

/-- The invariant holds at the start of a run. -/
theorem inv_init (cap : Nat) (roots : List FSTree) : Inv cap roots (initState roots) := by
  refine ⟨?_, ?_, ?_, ?_, ?_, ?_, ?_, ?_⟩ <;>
    simp [initState, List.countP_map, Function.comp_def, Phase.isReading,
      List.map_map, taskCount, taskBytes, taskErrs, rootsCount, rootsBytes, rootsErrs]

/-- Every step of the program preserves the invariant. -/
theorem inv_preserved {cap bufCap : Nat} {roots : List FSTree} {s s' : State}
    (hinv : Inv cap roots s) (hstep : Step cap bufCap s s') : Inv cap roots s' := by
  obtain ⟨hwg, htok, hcap, hclosed, hag, hcount, hbytes, herrs⟩ := hinv
  cases hstep with
  | acquire l₁ l₂ t wg tokens ch cl nf nb er ag h =>
      refine ⟨?_, ?_, ?_, ?_, ?_, ?_, ?_, ?_⟩
      · simpa using hwg
      · simp only [List.countP_append, List.countP_cons, Phase.isReading] at htok ⊢
        simp at htok ⊢
        omega
      · dsimp only at hcap ⊢
        omega
      · intro hc; exact absurd (hclosed hc) (by simp)
      · exact hag
      · simp only [List.map_append, List.map_cons, List.map_nil, List.sum_append, List.sum_cons, List.sum_nil,
          taskCount] at hcount ⊢
        exact hcount
      · simp only [List.map_append, List.map_cons, List.map_nil, List.sum_append, List.sum_cons, List.sum_nil,
          taskBytes] at hbytes ⊢
        exact hbytes
      · simp only [List.map_append, List.map_cons, List.map_nil, List.sum_append, List.sum_cons, List.sum_nil,
          taskErrs] at herrs ⊢
        exact herrs
  | readRelease l₁ l₂ t wg tokens ch cl nf nb er ag =>
      refine ⟨?_, ?_, ?_, ?_, ?_, ?_, ?_, ?_⟩
      · simpa using hwg
      · simp only [List.countP_append, List.countP_cons, Phase.isReading] at htok ⊢
        simp at htok ⊢
        omega
      · dsimp only at hcap ⊢
        omega
      · intro hc; exact absurd (hclosed hc) (by simp)
      · exact hag
      · simp only [List.map_append, List.map_cons, List.map_nil, List.sum_append, List.sum_cons, List.sum_nil,
          taskCount, walkCount] at hcount ⊢
        exact hcount
      · simp only [List.map_append, List.map_cons, List.map_nil, List.sum_append, List.sum_cons, List.sum_nil,
          taskBytes, walkBytes] at hbytes ⊢
        exact hbytes
      · simp only [List.map_append, List.map_cons, List.map_nil, List.sum_append, List.sum_cons, List.sum_nil,
          taskErrs, walkErrs] at herrs ⊢
        omega
  | spawn l₁ l₂ nm ok cs es wg tokens ch cl nf nb er ag =>
      refine ⟨?_, ?_, ?_, ?_, ?_, ?_, ?_, ?_⟩
      · simp at hwg ⊢; omega
      · simp only [List.countP_append, List.countP_cons, Phase.isReading] at htok ⊢
        simp at htok ⊢
        omega
      · dsimp only at hcap ⊢
        omega
      · intro hc; exact absurd (hclosed hc) (by simp)
      · exact hag
      · simp only [List.map_append, List.map_cons, List.map_nil, List.sum_append, List.sum_cons, List.sum_nil,
          taskCount, entriesCount_dir_cons] at hcount ⊢
        push_cast at hcount ⊢
        omega
      · simp only [List.map_append, List.map_cons, List.map_nil, List.sum_append, List.sum_cons, List.sum_nil,
          taskBytes, entriesBytes_dir_cons] at hbytes ⊢
        omega
      · simp only [List.map_append, List.map_cons, List.map_nil, List.sum_append, List.sum_cons, List.sum_nil,
          taskErrs, entriesErr_dir_cons] at herrs ⊢
        omega
  | send l₁ l₂ nm sz es wg tokens ch cl nf nb er ag h =>
      refine ⟨?_, ?_, ?_, ?_, ?_, ?_, ?_, ?_⟩
      · simpa using hwg
      · simp only [List.countP_append, List.countP_cons, Phase.isReading] at htok ⊢
        simp at htok ⊢
        omega
      · dsimp only at hcap ⊢
        omega
      · intro hc; exact absurd (hclosed hc) (by simp)
      · intro hga
        exact absurd (hclosed (hag hga).1) (by simp)
      · simp only [List.map_append, List.map_cons, List.map_nil, List.sum_append, List.sum_cons, List.sum_nil,
          taskCount, entriesCount, List.length_append, List.length_cons,
          List.length_nil] at hcount ⊢
        push_cast at hcount ⊢
        omega
      · simp only [List.map_append, List.map_cons, List.map_nil, List.sum_append, List.sum_cons, List.sum_nil,
          taskBytes, entriesBytes] at hbytes ⊢
        omega
      · simp only [List.map_append, List.map_cons, List.map_nil, List.sum_append, List.sum_cons, List.sum_nil,
          taskErrs, entriesErr] at herrs ⊢
        omega
  | finishTask l₁ l₂ wg tokens ch cl nf nb er ag =>
      refine ⟨?_, ?_, ?_, ?_, ?_, ?_, ?_, ?_⟩
      · simp at hwg ⊢; omega
      · simp only [List.countP_append, List.countP_cons, Phase.isReading] at htok ⊢
        simp at htok ⊢
        omega
      · dsimp only at hcap ⊢
        omega
      · intro hc; exact absurd (hclosed hc) (by simp)
      · exact hag
      · simp only [List.map_append, List.map_cons, List.map_nil, List.sum_append, List.sum_cons, List.sum_nil,
          taskCount, entriesCount] at hcount ⊢
        push_cast at hcount ⊢
        omega
      · simp only [List.map_append, List.map_cons, List.map_nil, List.sum_append, List.sum_cons, List.sum_nil,
          taskBytes, entriesBytes] at hbytes ⊢
        omega
      · simp only [List.map_append, List.map_cons, List.map_nil, List.sum_append, List.sum_cons, List.sum_nil,
          taskErrs, entriesErr] at herrs ⊢
        omega
  | closeChan ts tokens ch nf nb er ag =>
      have hts : ts = [] := by
        have h0 := hwg
        dsimp only at h0
        exact List.length_eq_zero.mp h0.symm
      refine ⟨?_, ?_, ?_, ?_, ?_, ?_, ?_, ?_⟩
      · simpa using hwg
      · simpa using htok
      · exact hcap
      · intro _; exact hts
      · intro hga; exact absurd (hag hga).1 (by simp)
      · simpa using hcount
      · simpa using hbytes
      · simpa using herrs
  | recv ts wg tokens sz rest cl nf nb er ag =>
      refine ⟨?_, ?_, ?_, ?_, ?_, ?_, ?_, ?_⟩
      · simpa using hwg
      · simpa using htok
      · exact hcap
      · exact hclosed
      · intro hga; exact absurd (hag hga).2 (by simp)
      · simp only [List.length_cons] at hcount ⊢
        push_cast at hcount ⊢
        omega
      · simp only [List.sum_cons] at hbytes ⊢
        omega
      · simpa using herrs
  | finish ts wg tokens nf nb er =>
      refine ⟨?_, ?_, ?_, ?_, ?_, ?_, ?_, ?_⟩
      · simpa using hwg
      · simpa using htok
      · exact hcap
      · exact hclosed
      · intro _; exact ⟨rfl, rfl⟩
      · simpa using hcount
      · simpa using hbytes
      · simpa using herrs

/-- Every reachable state of a run satisfies the invariant. -/
theorem reach_inv {cap bufCap : Nat} {roots : List FSTree} {s : State}
    (hr : Reach cap bufCap roots s) : Inv cap roots s := by
  induction hr with
  | refl => exact inv_init cap roots
  | tail _ hstep ih => exact inv_preserved ih hstep

/-- Every step of the program strictly decreases the termination measure. -/
theorem step_measure_lt {cap bufCap : Nat} {s s' : State}
    (hstep : Step cap bufCap s s') : stepMeasure s' < stepMeasure s := by
  cases hstep <;>
    simp only [stepMeasure, List.map_append, List.map_cons, List.map_nil,
      List.sum_append, List.sum_cons, List.sum_nil, List.length_append,
      List.length_cons, List.length_nil, taskM, entriesM_dir_cons, treeM,
      entriesM, pending, cond_true, cond_false] <;>
    omega

/-- No run of the program takes infinitely many steps: every maximal
execution is finite. -/
theorem no_infinite_run {cap bufCap : Nat} (f : Nat → State)
    (hf : ∀ n, Step cap bufCap (f n) (f (n + 1))) : False := by
  have key : ∀ n, stepMeasure (f n) + n ≤ stepMeasure (f 0) := by
    intro n
    induction n with
    | zero => omega
    | succ n ih =>
        have := step_measure_lt (hf n)
        omega
  have := key (stepMeasure (f 0) + 1)
  omega

/-- No reachable state deadlocks: as long as the aggregator loop has not
exited, some goroutine can take a step (this needs a positive semaphore
capacity and a positive channel buffer, as in the source where both are
256). -/
theorem progress {cap bufCap : Nat} {roots : List FSTree} {s : State}
    (hcap1 : 1 ≤ cap) (hbuf1 : 1 ≤ bufCap) (hr : Reach cap bufCap roots s)
    (hag : s.agDone = false) : ∃ s', Step cap bufCap s s' := by
  obtain ⟨hwg, htok, hcapb, hclosed, hagi, -, -, -⟩ := reach_inv hr
  obtain ⟨ts, wg, tokens, ch, cl, nf, nb, er, ag⟩ := s
  dsimp only at hwg htok hcapb hclosed hagi hag ⊢
  subst hag
  cases cl with
  | true =>
      obtain rfl := hclosed rfl
      cases ch with
      | nil => exact ⟨_, Step.finish [] wg tokens nf nb er⟩
      | cons sz rest => exact ⟨_, Step.recv [] wg tokens sz rest true nf nb er false⟩
  | false =>
      by_cases hex : ∃ x ∈ ts, x.isReading = true
      · obtain ⟨x, hmem, hx⟩ := hex
        obtain ⟨l₁, l₂, rfl⟩ := List.append_of_mem hmem
        cases x with
        | begin t => simp [Phase.isReading] at hx
        | reading t =>
            exact ⟨_, Step.readRelease l₁ l₂ t wg tokens ch false nf nb er false⟩
        | running es => simp [Phase.isReading] at hx
      · have htok0 : tokens = 0 := by
          rw [htok]
          refine List.countP_eq_zero.mpr ?_
          intro a ha hpa
          exact hex ⟨a, ha, hpa⟩
        subst htok0
        by_cases hbx : ∃ x ∈ ts, x.atBegin = true
        · obtain ⟨x, hmem, hx⟩ := hbx
          obtain ⟨l₁, l₂, rfl⟩ := List.append_of_mem hmem
          cases x with
          | begin t =>
              exact ⟨_, Step.acquire l₁ l₂ t wg 0 ch false nf nb er false (by omega)⟩
          | reading t => simp [Phase.atBegin] at hx
          | running es => simp [Phase.atBegin] at hx
        · cases ts with
          | nil =>
              have hw0 : wg = 0 := by simpa using hwg
              subst hw0
              exact ⟨_, Step.closeChan [] 0 ch nf nb er false⟩
          | cons p rest =>
              cases p with
              | begin t =>
                  exact absurd ⟨.begin t, List.mem_cons_self _ _, rfl⟩ hbx
              | reading t =>
                  exact absurd ⟨.reading t, List.mem_cons_self _ _, rfl⟩ hex
              | running es =>
                  cases es with
                  | nil =>
                      exact ⟨_, Step.finishTask [] rest wg 0 ch false nf nb er false⟩
                  | cons e es2 =>
                      cases e with
                      | dir nm ok cs =>
                          exact ⟨_, Step.spawn [] rest nm ok cs es2 wg 0 ch false
                            nf nb er false⟩
                      | file nm sz =>
                          by_cases hch : ch.length < bufCap
                          · exact ⟨_, Step.send [] rest nm sz es2 wg 0 ch false
                              nf nb er false hch⟩
                          · cases ch with
                            | nil => simp at hch; omega
                            | cons sz0 r0 =>
                                exact ⟨_, Step.recv (Phase.running
                                  (FSTree.file nm sz :: es2) :: rest) wg 0 sz0 r0
                                  false nf nb er false⟩

/-- Once the aggregator loop has exited, everything is over: the channel is
closed and drained, no walker is left, the WaitGroup is back to zero, and
the totals are exactly the walk totals of the roots. -/
theorem terminal_state {cap bufCap : Nat} {roots : List FSTree} {s : State}
    (hr : Reach cap bufCap roots s) (hag : s.agDone = true) :
    s.closed = true ∧ s.chan = [] ∧ s.tasks = [] ∧ s.wg = 0 ∧
      s.nfiles = (rootsCount roots : Int) ∧ s.nbytes = rootsBytes roots ∧
      s.errs = rootsErrs roots := by
  obtain ⟨hwg, htok, hcapb, hclosed, hagi, hcount, hbytes, herrs⟩ := reach_inv hr
  obtain ⟨hcl, hch⟩ := hagi hag
  have hts := hclosed hcl
  refine ⟨hcl, hch, hts, ?_, ?_, ?_, ?_⟩
  · rw [hwg, hts]; rfl
  · rw [hts, hch] at hcount; simpa using hcount
  · rw [hts, hch] at hbytes; simpa using hbytes
  · rw [hts] at herrs; simpa using herrs

/-- Capacity of the admission semaphore in the source:
`var sema = make(chan struct{}, 256)`. -/
def semaCapacity : Nat := 256

/-- Buffer size of the fan-in channel in the source:
`fileSizes := make(chan int64, 256)`. -/
def fileSizesBuffer : Nat := 256

/-- Default value of the `-t` flag in the source:
`flag.Int("t", runtime.NumCPU(), ...)` — the number of logical cores. -/
def tFlagDefault (numCPU : Nat) : Nat := numCPU

/-- Effect of `runtime.GOMAXPROCS(*tFlag)` in the source: the scheduler
thread count is set to the value of the `-t` flag. -/
def gomaxprocsSetting (tFlagValue : Nat) : Nat := tFlagValue

/-- Modelled from the spec: the Admission Gate capacity as the
specification describes it — the numeric parallelism option when given,
otherwise the number of logical processors. Stated only to compare the
spec's description against the actual `semaCapacity` of the source. -/
def specGateCapacity (numCPU : Nat) (override : Option Nat) : Nat :=
  override.getD numCPU

/-- Clamped elapsed-seconds computation that both reporters perform:
`elapsed := stop - start; if elapsed == 0 { elapsed = 1 }`. -/
def clampElapsed (start stop : Int) : Int :=
  if stop - start = 0 then 1 else stop - start

/-- Lines printed by the source `printDiskUsage` — the single `Printf` of
format `\nDone!\nFiles: %d, Size: %.1fGB, Avg FPS: %d, Elapsed: %d seconds\n`,
split at its newlines. `stop` is the `time.Now().Unix()` sample taken inside
the function; `gb` stands for the `%.1f` rendering of `float64(nbytes)/1e9`,
kept abstract because IEEE floating-point formatting is outside the
embedding (its output never contains a newline). `int64` arithmetic is
modelled on unbounded `Int`; Go's `/` truncates toward zero, which is
`Int.tdiv`. -/
def printDiskUsage (nfiles : Int) (gb : String) (start stop : Int) : List String :=
  let elapsed := stop - start
  let elapsed := if elapsed = 0 then 1 else elapsed
  let fps := Int.tdiv nfiles elapsed
  ["", "Done!",
    "Files: " ++ toString nfiles ++ ", Size: " ++ gb ++ "GB, Avg FPS: " ++
      toString fps ++ ", Elapsed: " ++ toString elapsed ++ " seconds"]

/-- Lines printed by the source `printProgress` — the `Printf` of format
`Files: %d, Size: %.1fGB, Goroutines: %d, Cur FPS: %d\n`. `now` is the
`time.Now().Unix()` sample, `goroutines` the `runtime.NumGoroutine()`
sample, `gb` the abstract `%.1f` rendering as in `printDiskUsage`. -/
def printProgress (nfiles : Int) (gb : String) (goroutines : Int)
    (start now : Int) : List String :=
  let elapsed := now - start
  let elapsed := if elapsed = 0 then 1 else elapsed
  let fps := Int.tdiv nfiles elapsed
  ["Files: " ++ toString nfiles ++ ", Size: " ++ gb ++ "GB, Goroutines: " ++
      toString goroutines ++ ", Cur FPS: " ++ toString fps]

/-- An empty readable directory, used as a concrete run input. -/
def tree0 : FSTree := .dir "d" true []

/-- A readable directory holding one 7-byte file, used as a concrete run
input. -/
def tree1 : FSTree := .dir "d" true [.file "a" 7]

/-- An unreadable directory, used as a concrete run input. -/
def treeBad : FSTree := .dir "b" false []

/-- A complete concrete execution over the single empty-directory root. -/
theorem reach_empty_dir :
    Reach 1 1 [tree0] ⟨[], 0, 0, [], true, 0, 0, 0, true⟩ := by
  refine Relation.ReflTransGen.head
    (Step.acquire [] [] tree0 1 0 [] false 0 0 0 false (by omega)) ?_
  refine Relation.ReflTransGen.head
    (Step.readRelease [] [] tree0 1 1 [] false 0 0 0 false) ?_
  refine Relation.ReflTransGen.head
    (Step.finishTask [] [] 1 0 [] false 0 0 0 false) ?_
  refine Relation.ReflTransGen.head
    (Step.closeChan [] 0 [] 0 0 0 false) ?_
  exact Relation.ReflTransGen.head (Step.finish [] 0 0 0 0 0) .refl

/-- A complete concrete execution over two empty-directory roots. -/
theorem reach_two_empty_dirs :
    Reach 1 1 [tree0, tree0] ⟨[], 0, 0, [], true, 0, 0, 0, true⟩ := by
  refine Relation.ReflTransGen.head
    (Step.acquire [] [.begin tree0] tree0 2 0 [] false 0 0 0 false (by omega)) ?_
  refine Relation.ReflTransGen.head
    (Step.readRelease [] [.begin tree0] tree0 2 1 [] false 0 0 0 false) ?_
  refine Relation.ReflTransGen.head
    (Step.finishTask [] [.begin tree0] 2 0 [] false 0 0 0 false) ?_
  refine Relation.ReflTransGen.head
    (Step.acquire [] [] tree0 1 0 [] false 0 0 0 false (by omega)) ?_
  refine Relation.ReflTransGen.head
    (Step.readRelease [] [] tree0 1 1 [] false 0 0 0 false) ?_
  refine Relation.ReflTransGen.head
    (Step.finishTask [] [] 1 0 [] false 0 0 0 false) ?_
  refine Relation.ReflTransGen.head
    (Step.closeChan [] 0 [] 0 0 0 false) ?_
  exact Relation.ReflTransGen.head (Step.finish [] 0 0 0 0 0) .refl

/-- A complete concrete execution over the single one-file root: the file's
size 7 is sent, received, and aggregated. -/
theorem reach_one_file :
    Reach 1 1 [tree1] ⟨[], 0, 0, [], true, 1, 7, 0, true⟩ := by
  refine Relation.ReflTransGen.head
    (Step.acquire [] [] tree1 1 0 [] false 0 0 0 false (by omega)) ?_
  refine Relation.ReflTransGen.head
    (Step.readRelease [] [] tree1 1 1 [] false 0 0 0 false) ?_
  refine Relation.ReflTransGen.head
    (Step.send [] [] "a" 7 [] 1 0 [] false 0 0 0 false (by simp)) ?_
  refine Relation.ReflTransGen.head
    (Step.finishTask [] [] 1 0 [7] false 0 0 0 false) ?_
  refine Relation.ReflTransGen.head
    (Step.closeChan [] 0 [7] 0 0 0 false) ?_
  refine Relation.ReflTransGen.head
    (Step.recv [] 0 0 7 [] true 0 0 0 false) ?_
  exact Relation.ReflTransGen.head (Step.finish [] 0 0 1 7 0) .refl

/-- A complete concrete execution over the single unreadable root: one error
line, zero totals. -/
theorem reach_bad_dir :
    Reach 1 1 [treeBad] ⟨[], 0, 0, [], true, 0, 0, 1, true⟩ := by
  refine Relation.ReflTransGen.head
    (Step.acquire [] [] treeBad 1 0 [] false 0 0 0 false (by omega)) ?_
  refine Relation.ReflTransGen.head
    (Step.readRelease [] [] treeBad 1 1 [] false 0 0 0 false) ?_
  refine Relation.ReflTransGen.head
    (Step.finishTask [] [] 1 0 [] false 0 0 1 false) ?_
  refine Relation.ReflTransGen.head
    (Step.closeChan [] 0 [] 0 0 1 false) ?_
  exact Relation.ReflTransGen.head (Step.finish [] 0 0 0 0 1) .refl

/-- C1: for a directory tree whose reads all succeed, the walk over that
single root terminates — no infinite interleaving exists, and no reachable
state is stuck before the aggregator exits — and every completed run ends
with the file count equal to the number of regular files in the tree and
the byte total equal to the exact sum of their sizes, for every positive
gate capacity and channel buffer (the thread count affects only which
interleaving occurs, and the step relation quantifies over all of them). -/
theorem claim1_walk_totals (t : FSTree) (cap bufCap : Nat)
    (hcap : 1 ≤ cap) (hbuf : 1 ≤ bufCap) (herr : walkErrs t = 0) :
    (∀ f : Nat → State, f 0 = initState [t] →
      ¬ (∀ n, Step cap bufCap (f n) (f (n + 1)))) ∧
    (∀ s, Reach cap bufCap [t] s → s.agDone = false →
      ∃ s', Step cap bufCap s s') ∧
    (∀ s, Reach cap bufCap [t] s → s.agDone = true →
      s.nfiles = (numFilesT t : Int) ∧ s.nbytes = sumSizesT t) := by
  refine ⟨?_, ?_, ?_⟩
  · intro f _ hall
    exact no_infinite_run f hall
  · intro s hr hag
    exact progress hcap hbuf hr hag
  · intro s hr hag
    obtain ⟨-, -, -, -, hnf, hnb, -⟩ := terminal_state hr hag
    obtain ⟨hc, hb⟩ := walk_noerr t herr
    constructor
    · rw [hnf]
      simp [rootsCount, hc]
    · rw [hnb]
      simp [rootsBytes, hb]

/-- Witness for C1: the one-file tree `tree1`, capacity 1, buffer 1; the
totals conjunct is applied to the concrete completed execution
`reach_one_file`, whose final state holds 1 file and 7 bytes. -/
theorem claim1_walk_totals_witness :
    (1 : Nat) ≤ 1 ∧ walkErrs tree1 = 0 ∧
    ((⟨[], 0, 0, [], true, 1, 7, 0, true⟩ : State).nfiles = (numFilesT tree1 : Int) ∧
      (⟨[], 0, 0, [], true, 1, 7, 0, true⟩ : State).nbytes = sumSizesT tree1) :=
  ⟨by omega,
   by simp [tree1, walkErrs, direntsErrs, direntsEntries, entriesErr],
   (claim1_walk_totals tree1 1 1 (by omega) (by omega)
      (by simp [tree1, walkErrs, direntsErrs, direntsEntries, entriesErr])).2.2
     _ reach_one_file rfl⟩

/-- C2: along every run, a close event can only happen from an unclosed
state whose WaitGroup is zero and changes nothing but the closed flag;
once closed, the channel stays closed (the close is one-time and
terminal); after the close no walker goroutine exists at all, so nothing
can send and the channel only drains; and the WaitGroup always equals the
number of live walkers — every dispatched walker was registered first. -/
theorem claim2_close_protocol (cap bufCap : Nat) (roots : List FSTree)
    (s s' : State) (hr : Reach cap bufCap roots s)
    (hstep : Step cap bufCap s s') :
    (s'.closed = true → s.closed = false →
      s.wg = 0 ∧ s'.tasks = s.tasks ∧ s'.chan = s.chan) ∧
    (s.closed = true → s'.closed = true) ∧
    (s.closed = true → s.tasks = [] ∧ s'.tasks = [] ∧
      s'.chan.length ≤ s.chan.length) ∧
    s.wg = s.tasks.length ∧ s'.wg = s'.tasks.length := by
  refine ⟨?_, ?_, ?_, (reach_inv hr).hwg, (inv_preserved (reach_inv hr) hstep).hwg⟩
  · intro h1 h2
    cases hstep <;> simp_all
  · intro h1
    cases hstep <;> simp_all
  · intro h1
    have hts := (reach_inv hr).hclosed h1
    cases hstep <;> simp_all

/-- Witness for C2 at the empty-roots run: the initial state is reachable,
and the watcher's close step from it is a real step of the relation. -/
theorem claim2_close_protocol_witness :
    ((⟨[], 0, 0, [], true, 0, 0, 0, false⟩ : State).closed = true →
      (initState []).closed = false →
      (initState []).wg = 0 ∧
        (⟨[], 0, 0, [], true, 0, 0, 0, false⟩ : State).tasks = (initState []).tasks ∧
        (⟨[], 0, 0, [], true, 0, 0, 0, false⟩ : State).chan = (initState []).chan) ∧
    ((initState []).closed = true →
      (⟨[], 0, 0, [], true, 0, 0, 0, false⟩ : State).closed = true) ∧
    ((initState []).closed = true → (initState []).tasks = [] ∧
      (⟨[], 0, 0, [], true, 0, 0, 0, false⟩ : State).tasks = [] ∧
      (⟨[], 0, 0, [], true, 0, 0, 0, false⟩ : State).chan.length ≤
        (initState []).chan.length) ∧
    (initState []).wg = (initState []).tasks.length ∧
    (⟨[], 0, 0, [], true, 0, 0, 0, false⟩ : State).wg =
      (⟨[], 0, 0, [], true, 0, 0, 0, false⟩ : State).tasks.length :=
  claim2_close_protocol 1 1 [] (initState []) ⟨[], 0, 0, [], true, 0, 0, 0, false⟩
    Relation.ReflTransGen.refl (Step.closeChan [] 0 [] 0 0 0 false)

/-- C3: a failed directory read yields exactly one error line and the empty
entry list; the error line is the fixed prefix `du: ` followed by the error
description; the failing subtree contributes zero files and zero bytes; a
run whose only root is unreadable ends with exactly one error line and zero
totals; and errors never get the run stuck — progress holds for any roots. -/
theorem claim3_unreadable_root (cap bufCap : Nat) (nm : String)
    (cs : List FSTree) (msg : String) (s : State)
    (hr : Reach cap bufCap [FSTree.dir nm false cs] s) (hag : s.agDone = true) :
    dirents (.dir nm false cs) = ([], 1) ∧
    (errLine msg).toList = "du: ".toList ++ msg.toList ∧
    walkCount (.dir nm false cs) = 0 ∧ walkBytes (.dir nm false cs) = 0 ∧
    s.errs = 1 ∧ s.nfiles = 0 ∧ s.nbytes = 0 ∧
    (1 ≤ cap → 1 ≤ bufCap → ∀ (roots : List FSTree) (u : State),
      Reach cap bufCap roots u → u.agDone = false →
      ∃ u', Step cap bufCap u u') := by
  obtain ⟨-, -, -, -, hnf, hnb, herrs⟩ := terminal_state hr hag
  refine ⟨rfl, ?_, ?_, ?_, ?_, ?_, ?_, ?_⟩
  · simp [errLine]
  · simp [walkCount, direntsEntries, entriesCount]
  · simp [walkBytes, direntsEntries, entriesBytes]
  · rw [herrs]
    simp [rootsErrs, walkErrs, direntsErrs, direntsEntries, entriesErr]
  · rw [hnf]
    simp [rootsCount, walkCount, direntsEntries, entriesCount]
  · rw [hnb]
    simp [rootsBytes, walkBytes, direntsEntries, entriesBytes]
  · intro h1 h2 roots u hru hagu
    exact progress h1 h2 hru hagu

/-- Witness for C3 at the concrete completed execution over the unreadable
root `treeBad`: one error line, zero totals. -/
theorem claim3_unreadable_root_witness :
    dirents (.dir "b" false []) = ([], 1) ∧
    (errLine "open b: permission denied").toList =
      "du: ".toList ++ ("open b: permission denied").toList ∧
    walkCount (.dir "b" false []) = 0 ∧ walkBytes (.dir "b" false []) = 0 ∧
    (⟨[], 0, 0, [], true, 0, 0, 1, true⟩ : State).errs = 1 ∧
    (⟨[], 0, 0, [], true, 0, 0, 1, true⟩ : State).nfiles = 0 ∧
    (⟨[], 0, 0, [], true, 0, 0, 1, true⟩ : State).nbytes = 0 ∧
    (1 ≤ 1 → 1 ≤ 1 → ∀ (roots : List FSTree) (u : State),
      Reach 1 1 roots u → u.agDone = false →
      ∃ u', Step 1 1 u u') :=
  claim3_unreadable_root 1 1 "b" [] "open b: permission denied" _ reach_bad_dir rfl

/-- C4: every `dirents` call holds exactly one token for the duration of its
read — at every reachable state the outstanding tokens are exactly the
walkers inside the acquire/release pair and never exceed the capacity —
and any step changes the token count by at most one, in lockstep with a
walker entering the read (acquire) or leaving it (release, which the
deferred `<-sema` performs on the error path too). -/
theorem claim4_gate_tokens (cap bufCap : Nat) (roots : List FSTree)
    (s s' : State) (hr : Reach cap bufCap roots s)
    (hstep : Step cap bufCap s s') :
    s.tokens ≤ cap ∧ s.tokens = s.tasks.countP Phase.isReading ∧
    (s'.tokens = s.tokens + 1 ∧
        s'.tasks.countP Phase.isReading = s.tasks.countP Phase.isReading + 1 ∨
      s.tokens = s'.tokens + 1 ∧
        s.tasks.countP Phase.isReading = s'.tasks.countP Phase.isReading + 1 ∨
      s'.tokens = s.tokens ∧
        s'.tasks.countP Phase.isReading = s.tasks.countP Phase.isReading) := by
  have h1 := (reach_inv hr).htok
  have h2 := (inv_preserved (reach_inv hr) hstep).htok
  refine ⟨(reach_inv hr).hcap, h1, ?_⟩
  cases hstep <;>
    simp only [List.countP_append, List.countP_cons, Phase.isReading,
      List.countP_nil] at h1 h2 ⊢ <;>
    simp at h1 h2 ⊢ <;>
    omega

/-- Witness for C4 at the empty-roots run: the initial state with the
watcher's close step. -/
theorem claim4_gate_tokens_witness :
    (initState []).tokens ≤ 1 ∧
    (initState []).tokens = (initState []).tasks.countP Phase.isReading ∧
    ((⟨[], 0, 0, [], true, 0, 0, 0, false⟩ : State).tokens = (initState []).tokens + 1 ∧
        (⟨[], 0, 0, [], true, 0, 0, 0, false⟩ : State).tasks.countP Phase.isReading =
          (initState []).tasks.countP Phase.isReading + 1 ∨
      (initState []).tokens = (⟨[], 0, 0, [], true, 0, 0, 0, false⟩ : State).tokens + 1 ∧
        (initState []).tasks.countP Phase.isReading =
          (⟨[], 0, 0, [], true, 0, 0, 0, false⟩ : State).tasks.countP Phase.isReading + 1 ∨
      (⟨[], 0, 0, [], true, 0, 0, 0, false⟩ : State).tokens = (initState []).tokens ∧
        (⟨[], 0, 0, [], true, 0, 0, 0, false⟩ : State).tasks.countP Phase.isReading =
          (initState []).tasks.countP Phase.isReading) :=
  claim4_gate_tokens 1 1 [] (initState []) ⟨[], 0, 0, [], true, 0, 0, 0, false⟩
    Relation.ReflTransGen.refl (Step.closeChan [] 0 [] 0 0 0 false)

/-- C5 counterexample: the claim says the gate capacity defaults to the
number of logical processors; on a machine with 4 logical processors and no
override that would be 4, but the source's gate is the fixed constant
`make(chan struct{}, 256)` — capacity 256. -/
theorem claim5_capacity_counterexample :
    specGateCapacity 4 none ≠ semaCapacity ∧ semaCapacity = 256 := by
  constructor
  · decide
  · rfl

/-- C5 amended: the Admission Gate's capacity is the fixed constant 256,
independent of the CPU count and of the `-t` option — so outstanding reads
never exceed 256 in any run — while the numeric `-t` option instead sets
the scheduler thread count (`runtime.GOMAXPROCS`), defaulting to the number
of logical processors. -/
theorem claim5_capacity_amended (bufCap : Nat) (roots : List FSTree)
    (s : State) (ncpu t : Nat)
    (hr : Reach semaCapacity bufCap roots s) :
    semaCapacity = 256 ∧ s.tokens ≤ 256 ∧ tFlagDefault ncpu = ncpu ∧
      gomaxprocsSetting t = t ∧ fileSizesBuffer = 256 :=
  ⟨rfl, (reach_inv hr).hcap, rfl, rfl, rfl⟩

/-- Witness for C5 at the initial state of an empty-roots run under the
source's capacity 256. -/
theorem claim5_capacity_amended_witness :
    semaCapacity = 256 ∧ (initState []).tokens ≤ 256 ∧ tFlagDefault 4 = 4 ∧
      gomaxprocsSetting 8 = 8 ∧ fileSizesBuffer = 256 :=
  claim5_capacity_amended 1 [] (initState []) 4 8 Relation.ReflTransGen.refl

/-- C6: a completed multi-root run's totals equal the component-wise sums of
the totals of completed single-root runs over the same roots. -/
theorem claim6_multi_root (cap bufCap : Nat) (roots : List FSTree)
    (s : State) (u : FSTree → State) (hr : Reach cap bufCap roots s)
    (hag : s.agDone = true)
    (hu : ∀ r ∈ roots, Reach cap bufCap [r] (u r) ∧ (u r).agDone = true) :
    s.nfiles = (roots.map fun r => (u r).nfiles).sum ∧
    s.nbytes = (roots.map fun r => (u r).nbytes).sum := by
  obtain ⟨-, -, -, -, hnf, hnb, -⟩ := terminal_state hr hag
  have hpt : ∀ r ∈ roots,
      (u r).nfiles = (walkCount r : Int) ∧ (u r).nbytes = walkBytes r := by
    intro r hrm
    obtain ⟨hru, hagu⟩ := hu r hrm
    obtain ⟨-, -, -, -, h1, h2, -⟩ := terminal_state hru hagu
    constructor
    · rw [h1]; simp [rootsCount]
    · rw [h2]; simp [rootsBytes]
  have key : ∀ rs : List FSTree,
      (∀ r ∈ rs, (u r).nfiles = (walkCount r : Int) ∧ (u r).nbytes = walkBytes r) →
      (rs.map fun r => (u r).nfiles).sum = (rootsCount rs : Int) ∧
      (rs.map fun r => (u r).nbytes).sum = rootsBytes rs := by
    intro rs
    induction rs with
    | nil => intro _; simp [rootsCount, rootsBytes]
    | cons a l ih =>
        intro h
        have ha := h a (by simp)
        have hl := ih fun r hrm => h r (by simp [hrm])
        simp only [List.map_cons, List.sum_cons, rootsCount, rootsBytes] at ha hl ⊢
        push_cast at hl ⊢
        omega
  obtain ⟨k1, k2⟩ := key roots hpt
  exact ⟨by rw [hnf, k1], by rw [hnb, k2]⟩

/-- Witness for C6: the two-root run over two empty directories against two
single-root runs over the same directory. -/
theorem claim6_multi_root_witness :
    (⟨[], 0, 0, [], true, 0, 0, 0, true⟩ : State).nfiles =
      ([tree0, tree0].map fun _ =>
        ((⟨[], 0, 0, [], true, 0, 0, 0, true⟩ : State)).nfiles).sum ∧
    (⟨[], 0, 0, [], true, 0, 0, 0, true⟩ : State).nbytes =
      ([tree0, tree0].map fun _ =>
        ((⟨[], 0, 0, [], true, 0, 0, 0, true⟩ : State)).nbytes).sum :=
  claim6_multi_root 1 1 [tree0, tree0] _ (fun _ => ⟨[], 0, 0, [], true, 0, 0, 0, true⟩)
    reach_two_empty_dirs rfl (fun r hrm => by
      have hre : r = tree0 := by simpa using hrm
      subst hre
      exact ⟨reach_empty_dir, rfl⟩)

/-- C7: any two completed runs over the same roots with the same
configuration end with identical file counts and identical byte totals. -/
theorem claim7_idempotent (cap bufCap : Nat) (roots : List FSTree)
    (s₁ s₂ : State) (h₁ : Reach cap bufCap roots s₁) (hag₁ : s₁.agDone = true)
    (h₂ : Reach cap bufCap roots s₂) (hag₂ : s₂.agDone = true) :
    s₁.nfiles = s₂.nfiles ∧ s₁.nbytes = s₂.nbytes := by
  obtain ⟨-, -, -, -, a1, a2, -⟩ := terminal_state h₁ hag₁
  obtain ⟨-, -, -, -, b1, b2, -⟩ := terminal_state h₂ hag₂
  exact ⟨by rw [a1, b1], by rw [a2, b2]⟩

/-- Witness for C7: the one-file run compared with itself. -/
theorem claim7_idempotent_witness :
    (⟨[], 0, 0, [], true, 1, 7, 0, true⟩ : State).nfiles =
      (⟨[], 0, 0, [], true, 1, 7, 0, true⟩ : State).nfiles ∧
    (⟨[], 0, 0, [], true, 1, 7, 0, true⟩ : State).nbytes =
      (⟨[], 0, 0, [], true, 1, 7, 0, true⟩ : State).nbytes :=
  claim7_idempotent 1 1 [tree1] _ _ reach_one_file rfl reach_one_file rfl

/-- C8 counterexample: the final `Printf` emits three lines (a blank line,
`Done!`, and the stats line), not exactly one. -/
theorem claim8_final_line_counterexample :
    (printDiskUsage 0 "0.0" 0 1).length = 3 ∧
    (printDiskUsage 0 "0.0" 0 1).length ≠ 1 := by
  constructor <;> simp [printDiskUsage]

/-- C8 amended: at completion the program's single final `Printf` emits a
blank line and a `Done!` line followed by exactly one stats line carrying
the total file count, the byte size in decimal gigabytes with one fraction
digit (the `%.1f` field `gb`), the truncating average files-per-second, and
the total elapsed seconds. -/
theorem claim8_final_output_amended (nf : Int) (gb : String) (st sp : Int) :
    (printDiskUsage nf gb st sp).length = 3 ∧
    printDiskUsage nf gb st sp =
      ["", "Done!",
        "Files: " ++ toString nf ++ ", Size: " ++ gb ++ "GB, Avg FPS: " ++
          toString (Int.tdiv nf (clampElapsed st sp)) ++ ", Elapsed: " ++
          toString (clampElapsed st sp) ++ " seconds"] := by
  constructor
  · simp [printDiskUsage]
  · simp [printDiskUsage, clampElapsed]

/-- C9: both reporters replace a zero elapsed interval by one second before
dividing, so the divisor is never zero for any input, and the rate each of
them prints is the truncating integer quotient (Go's `/` on `int64`,
`Int.tdiv`) of the file count by the clamped elapsed seconds. -/
theorem claim9_rate_division :
    (∀ start stop : Int, clampElapsed start stop ≠ 0) ∧
    (∀ (nf : Int) (gb : String) (st sp : Int), printDiskUsage nf gb st sp =
      ["", "Done!",
        "Files: " ++ toString nf ++ ", Size: " ++ gb ++ "GB, Avg FPS: " ++
          toString (Int.tdiv nf (clampElapsed st sp)) ++ ", Elapsed: " ++
          toString (clampElapsed st sp) ++ " seconds"]) ∧
    (∀ (nf : Int) (gb : String) (g st now : Int), printProgress nf gb g st now =
      ["Files: " ++ toString nf ++ ", Size: " ++ gb ++ "GB, Goroutines: " ++
        toString g ++ ", Cur FPS: " ++ toString (Int.tdiv nf (clampElapsed st now))]) := by
  refine ⟨?_, ?_, ?_⟩
  · intro st sp
    unfold clampElapsed
    split
    · omega
    · assumption
  · intro nf gb st sp
    simp [printDiskUsage, clampElapsed]
  · intro nf gb g st now
    simp [printProgress, clampElapsed]

/-- C10: roots are not deduplicated — a run whose root sequence repeats the
same directory k times ends with k times that directory's walk totals. -/
theorem claim10_duplicate_roots (cap bufCap k : Nat) (r : FSTree) (s : State)
    (hr : Reach cap bufCap (List.replicate k r) s) (hag : s.agDone = true) :
    s.nfiles = (k : Int) * (walkCount r : Int) ∧
    s.nbytes = (k : Int) * walkBytes r := by
  obtain ⟨-, -, -, -, hnf, hnb, -⟩ := terminal_state hr hag
  constructor
  · rw [hnf]
    simp [rootsCount, List.map_replicate, List.sum_replicate, smul_eq_mul]
  · rw [hnb]
    simp [rootsBytes, List.map_replicate, List.sum_replicate, nsmul_eq_mul]

/-- Witness for C10: the same empty directory listed twice as roots. -/
theorem claim10_duplicate_roots_witness :
    (⟨[], 0, 0, [], true, 0, 0, 0, true⟩ : State).nfiles =
      (2 : Int) * (walkCount tree0 : Int) ∧
    (⟨[], 0, 0, [], true, 0, 0, 0, true⟩ : State).nbytes =
      (2 : Int) * walkBytes tree0 :=
  claim10_duplicate_roots 1 1 2 tree0 _ reach_two_empty_dirs rfl

end Godu
